import Mathlib

/-!
Shallow embedding of the reorientation-search engine of `src/src/main.rs`
(the `rocket` repository): the `Reorient` catalog, the bounded search `dfs`,
the iterative-deepening driver `iddfs`, the solution formatter, and the
startup computation of the cheap-move mask.

The cube state representation and the lower-bound oracle are external
collaborators (the `cubesim` crate); they are modelled by an abstract
environment `CubeEnv` carrying a state type, the pure state-transition
function `apply_move`, the oracle `lower_bound`, and the canonical solved
state (`FaceletCube::new(3)` in the source).

Panics (`display_move` on an unsupported move, out-of-bounds indexing) are
modelled by `Option`: `none` is an aborted computation.
-/

/-- `MoveVariant` from the `cubesim` crate: quarter turn, half turn,
inverse quarter turn. -/
inductive MoveVariant : Type
  | Standard
  | Double
  | Inverse
deriving DecidableEq

/-- The `Move` type of the `cubesim` crate, restricted to the constructors
the source program matches on (`display_move`, `make_naive_solver`,
`equivalent_rkt_moves`): face turns, width-parameterised wide turns, and
whole-cube axis rotations. -/
inductive Move : Type
  | U (v : MoveVariant)
  | L (v : MoveVariant)
  | F (v : MoveVariant)
  | R (v : MoveVariant)
  | B (v : MoveVariant)
  | D (v : MoveVariant)
  | Uw (n : Nat) (v : MoveVariant)
  | Lw (n : Nat) (v : MoveVariant)
  | Fw (n : Nat) (v : MoveVariant)
  | Rw (n : Nat) (v : MoveVariant)
  | Bw (n : Nat) (v : MoveVariant)
  | Dw (n : Nat) (v : MoveVariant)
  | X (v : MoveVariant)
  | Y (v : MoveVariant)
  | Z (v : MoveVariant)
deriving DecidableEq

/-- The 24 whole-cube reorientations (source lines 214-244), in
discriminant order `None = 0` through `DFL = 23`. -/
inductive Reorient : Type
  | None
  | R
  | L
  | U
  | D
  | F
  | B
  | R2
  | U2
  | F2
  | UF
  | UR
  | FR
  | DF
  | UL
  | BR
  | UFR
  | DBL
  | UFL
  | DBR
  | DFR
  | UBL
  | UBR
  | DFL
deriving DecidableEq

/-- The discriminant of a `Reorient` (`self as u32` in the source). -/
def Reorient.idx : Reorient → Nat
  | .None => 0
  | .R => 1
  | .L => 2
  | .U => 3
  | .D => 4
  | .F => 5
  | .B => 6
  | .R2 => 7
  | .U2 => 8
  | .F2 => 9
  | .UF => 10
  | .UR => 11
  | .FR => 12
  | .DF => 13
  | .UL => 14
  | .BR => 15
  | .UFR => 16
  | .DBL => 17
  | .UFL => 18
  | .DBR => 19
  | .DFR => 20
  | .UBL => 21
  | .UBR => 22
  | .DFL => 23

/-- `Reorient::ALL` (source lines 284-309): the catalog, in discriminant
order. -/
def Reorient.ALL : List Reorient :=
  [.None,
   .R, .L, .U, .D, .F, .B,
   .R2, .U2, .F2,
   .UF, .UR, .FR, .DF, .UL, .BR,
   .UFR, .DBL, .UFL, .DBR, .DFR, .UBL, .UBR, .DFL]

/-- `Reorient::is_none` (source lines 364-366). -/
def Reorient.is_none (r : Reorient) : Bool :=
  r = Reorient.None

/-- The base-cost match of `Reorient::cost` (source lines 318-324). -/
def Reorient.base_cost : Reorient → Nat
  | .None => 0
  | .R | .L | .U | .D | .F | .B => 1
  | .R2 | .U2 | .F2 => 2
  | .UF | .UR | .FR | .DF | .UL | .BR => 3
  | .UFR | .DBL | .UFL | .DBR | .DFR | .UBL | .UBR | .DFL => 2

/-- `Reorient::cost` (source lines 311-325). `cheap` is the process-wide
`CHEAP_MOVES` bit mask, passed explicitly: if the reorientation's bit is
set and it is not the identity, the effective cost is 1; otherwise the
base cost applies. -/
def Reorient.cost (cheap : Nat) (r : Reorient) : Nat :=
  if (cheap >>> r.idx) &&& 1 ≠ 0 ∧ r ≠ Reorient.None then 1
  else r.base_cost

/-- `Reorient::equivalent_rkt_moves` (source lines 327-362): the elementary
axis-rotation sequence equivalent to the reorientation. -/
def Reorient.equivalent_rkt_moves : Reorient → List Move
  | .None => []
  | .R => [.X .Standard]
  | .L => [.X .Inverse]
  | .U => [.Y .Standard]
  | .D => [.Y .Inverse]
  | .F => [.Z .Standard]
  | .B => [.Z .Inverse]
  | .R2 => [.X .Double]
  | .U2 => [.Y .Double]
  | .F2 => [.Z .Double]
  | .UF => [.X .Standard, .Y .Double]
  | .UR => [.Z .Standard, .X .Double]
  | .FR => [.Y .Standard, .Z .Double]
  | .DF => [.X .Standard, .Z .Double]
  | .UL => [.Z .Standard, .Y .Double]
  | .BR => [.Y .Standard, .X .Double]
  | .UFR => [.X .Standard, .Y .Standard]
  | .DBL => [.Y .Inverse, .X .Inverse]
  | .UFL => [.Z .Standard, .Y .Standard]
  | .DBR => [.X .Standard, .Y .Inverse]
  | .DFR => [.X .Standard, .Z .Standard]
  | .UBL => [.Y .Standard, .Z .Inverse]
  | .UBR => [.Y .Standard, .X .Standard]
  | .DFL => [.Z .Standard, .X .Inverse]

/-- The `fmt::Display` implementation for `Reorient` (source lines
245-282). The process-wide `STICKER_NOTATION` flag is passed explicitly as
`s`. Identity renders as a single blank space; every other reorientation
renders as its token surrounded by one space on each side. -/
def Reorient.display (s : Bool) : Reorient → String
  | .None => " "
  | .R => " " ++ (if s then "23I:L" else "Ox") ++ " "
  | .L => " " ++ (if s then "23I:R" else "Ox'") ++ " "
  | .U => " " ++ (if s then "23I:D" else "Oy") ++ " "
  | .D => " " ++ (if s then "23I:U" else "Oy'") ++ " "
  | .F => " " ++ (if s then "23I:B" else "Oz") ++ " "
  | .B => " " ++ (if s then "23I:F" else "Oz'") ++ " "
  | .R2 => " " ++ (if s then "23I:R2" else "Ox2") ++ " "
  | .U2 => " " ++ (if s then "23I:U2" else "Oy2") ++ " "
  | .F2 => " " ++ (if s then "23I:F2" else "Oz2") ++ " "
  | .UF => " " ++ (if s then "23I:UF" else "Oxy2") ++ " "
  | .UR => " " ++ (if s then "23I:UR" else "Ozx2") ++ " "
  | .FR => " " ++ (if s then "23I:FR" else "Oyz2") ++ " "
  | .DF => " " ++ (if s then "23I:DF" else "Oxz2") ++ " "
  | .UL => " " ++ (if s then "23I:UL" else "Ozy2") ++ " "
  | .BR => " " ++ (if s then "23I:BR" else "Oyx2") ++ " "
  | .UFR => " " ++ (if s then "23I:DBL" else "Oxy") ++ " "
  | .DBL => " " ++ (if s then "23I:UFR" else "Oy'x'") ++ " "
  | .UFL => " " ++ (if s then "23I:DBR" else "Ozy") ++ " "
  | .DBR => " " ++ (if s then "23I:UFL" else "Oxy'") ++ " "
  | .DFR => " " ++ (if s then "23I:UBL" else "Oxz") ++ " "
  | .UBL => " " ++ (if s then "23I:DFR" else "Oyz'") ++ " "
  | .UBR => " " ++ (if s then "23I:DFL" else "Oyx") ++ " "
  | .DFL => " " ++ (if s then "23I:UBR" else "Ozx'") ++ " "

/-- `display_move_variant` (source lines 389-395). -/
def display_move_variant : MoveVariant → String
  | .Standard => ""
  | .Double => "2"
  | .Inverse => "'"

/-- `display_move` (source lines 369-388). The `_ => panic!` arm (wide
moves of width other than 2) is modelled as `none`. -/
def display_move : Move → Option String
  | .U v => some ("U" ++ display_move_variant v)
  | .L v => some ("L" ++ display_move_variant v)
  | .F v => some ("F" ++ display_move_variant v)
  | .R v => some ("R" ++ display_move_variant v)
  | .B v => some ("B" ++ display_move_variant v)
  | .D v => some ("D" ++ display_move_variant v)
  | .Uw 2 v => some ("Uw" ++ display_move_variant v)
  | .Lw 2 v => some ("Lw" ++ display_move_variant v)
  | .Fw 2 v => some ("Fw" ++ display_move_variant v)
  | .Rw 2 v => some ("Rw" ++ display_move_variant v)
  | .Bw 2 v => some ("Bw" ++ display_move_variant v)
  | .Dw 2 v => some ("Dw" ++ display_move_variant v)
  | .X v => some ("x" ++ display_move_variant v)
  | .Y v => some ("y" ++ display_move_variant v)
  | .Z v => some ("z" ++ display_move_variant v)
  | _ => none

/-- The external cube-state collaborators (the `cubesim` crate), §6 of the
spec: a state type, the pure transition `apply_move`, the admissible
lower-bound oracle `NAIVE_SOLVER.lower_bound`, and the canonical solved
state `FaceletCube::new(3)`. -/
structure CubeEnv (S : Type) where
  apply_move : S → Move → S
  lower_bound : S → Nat
  solved : S

/-- `Cube::apply_moves`: apply a move sequence left to right. -/
def CubeEnv.apply_moves (env : CubeEnv S) (state : S) (moves : List Move) : S :=
  moves.foldl env.apply_move state

/-- `Solution` (source line 212): reorientations between each move, in
reverse gap order as produced by the recursion. -/
abbrev Solution : Type := List Reorient

/-- The base case of `dfs` (source lines 171-180): no reorientation
choices remain; apply all remaining moves and ask the oracle whether the
result is within one move of solved. On success, the single solution is
`moves.len().saturating_sub(1)` identity entries. -/
def dfsBase (env : CubeEnv S) (state : S) (moves : List Move) : List Solution :=
  if env.lower_bound (env.apply_moves state moves) ≤ 1 then
    [(List.replicate (moves.length - 1) Reorient.None : List Reorient)]
  else
    []

/-- `dfs` (source lines 170-209). The first two arms and the `b = 0` test
in the third arm are the source's base case
`moves.len() <= 1 || max_reorients == 0`; then comes the pruning test,
and then the 24-way recursion, where the child budget is
`max_reorients - 1 + reorient.is_none() as usize`. -/
def dfs (env : CubeEnv S) : S → List Move → Nat → List Solution
  | state, [], _ => dfsBase env state []
  | state, [m], _ => dfsBase env state [m]
  | state, m :: m2 :: rest, b =>
    if b = 0 then
      dfsBase env state (m :: m2 :: rest)
    else if env.lower_bound state > (m :: m2 :: rest).length + 1 then
      []
    else
      let new_state := env.apply_move state m
      Reorient.ALL.flatMap fun reorient =>
        (dfs env (env.apply_moves new_state reorient.equivalent_rkt_moves) (m2 :: rest)
            (b - 1 + if reorient.is_none then 1 else 0)).map
          (fun solution => solution ++ [reorient])

/-- A trivial environment (oracle constantly 0) used to exercise the
search on concrete inputs. -/
def trivEnv : CubeEnv Unit where
  apply_move := fun _ _ => ()
  lower_bound := fun _ => 0
  solved := ()

example : dfs trivEnv () [.R .Standard, .U .Standard] 0 = [[Reorient.None]] := by decide

example : (dfs trivEnv () [.R .Standard, .U .Standard] 1).length = 24 := by decide

/-- The string-building loop of `iddfs` (source lines 152-156): starting
from the display of the first move, append each reorientation's display
followed by the display of the next move, over the reversed solution
zipped with `moves[1..]`. `sticker` is the `STICKER_NOTATION` flag. -/
def buildString (sticker : Bool) : String → List (Reorient × Move) → Option String
  | acc, [] => some acc
  | acc, (reorient, mv) :: rest => do
    let dm ← display_move mv
    buildString sticker (acc ++ Reorient.display sticker reorient ++ dm) rest

/-- The per-solution closure of `iddfs` (source lines 148-161): reverse
the raw solution, interleave it with the moves into a display string, and
pair it with the solution's total effective cost. -/
def formatSolution (cheap : Nat) (sticker : Bool) (moves : List Move)
    (solution : Solution) : Option (Nat × String) := do
  let m0 ← moves.head?
  let s0 ← display_move m0
  let str ← buildString sticker s0 ((solution : List Reorient).reverse.zip moves.tail)
  pure (((solution : List Reorient).map (Reorient.cost cheap)).sum, str)

/-- The `ret.into_iter().map(...).collect()` of `iddfs` (source lines
146-162): format every raw solution. -/
def formatSolutions (cheap : Nat) (sticker : Bool) (moves : List Move) :
    List Solution → Option (List (Nat × String))
  | [] => some []
  | solution :: rest => do
    let r ← formatSolution cheap sticker moves solution
    let rs ← formatSolutions cheap sticker moves rest
    pure (r :: rs)

/-- The `for max_reorients in 0..min(moves.len(), max_depth + 1)` loop of
`iddfs` (source lines 142-165), as a counter plus remaining-iterations
recursion: run `dfs` from the solved state at the current budget; if the
result is empty move on to the next budget, otherwise format the
solutions and return them with the budget. Falling off the end of the
loop returns `(0, [])` (source line 167). -/
def iddfsLoop (env : CubeEnv S) (cheap : Nat) (sticker : Bool) (moves : List Move) :
    Nat → Nat → Option (Nat × List (Nat × String))
  | _, 0 => some (0, [])
  | max_reorients, n + 1 =>
    let ret := dfs env env.solved moves max_reorients
    if ret.isEmpty then
      iddfsLoop env cheap sticker moves (max_reorients + 1) n
    else
      (formatSolutions cheap sticker moves ret).map fun solutions =>
        (max_reorients, solutions)

/-- `iddfs` (source lines 131-168). The degenerate arm (`moves.len() <= 1`,
lines 132-140) returns cost 0 with the display of the single move, or the
empty string for an empty algorithm (`unwrap_or_default`); otherwise the
budget loop runs from 0 below `min(moves.len(), max_depth + 1)`. -/
def iddfs (env : CubeEnv S) (cheap : Nat) (sticker : Bool) (moves : List Move)
    (max_depth : Nat) : Option (Nat × List (Nat × String)) :=
  if moves.length ≤ 1 then
    (match moves.head? with
      | some m => display_move m
      | none => some "").map fun d => (0, [(0, d)])
  else
    iddfsLoop env cheap sticker moves 0 (min moves.length (max_depth + 1))

example : iddfs trivEnv 0 false [.R .Standard] 3 = some (0, [(0, "R")]) := by decide

example : iddfs trivEnv 0 false [.R .Standard, .U .Standard] 3
    = some (0, [(0, "R U")]) := by decide

/-- The command-line arguments (source lines 40-64) relevant to the
startup configuration. -/
structure Args where
  depth : Nat
  stickers : Bool
  all : Bool
  cheap_moves : List String
  max_depth : Nat

/-- The process-wide configuration written by `main` before the first
search. -/
structure GlobalConfig where
  cheap_moves_mask : Nat
  sticker_flag : Bool
  pruning_table_depth : Nat

/-- The startup configuration sequence of `main` (source lines 69-83),
with the globals as explicit state. `STICKER_NOTATION` is initialized to
`false` (source line 10) and `main` stores `args.stickers` into it only
at line 83, after the cheap-move mask has been computed from
`r.to_string()` (lines 74-79); so the mask computation formats every
reorientation with the flag still `false`. -/
def mainInit (args : Args) : GlobalConfig :=
  let sticker_flag_at_mask_time := false
  let cheap_move_set := args.cheap_moves.map fun s => " O" ++ s ++ " "
  let cheap_move_set_mask :=
    Reorient.ALL.enum.foldl
      (fun mask p =>
        if cheap_move_set.contains (Reorient.display sticker_flag_at_mask_time p.2) then
          mask ||| (1 <<< p.1)
        else
          mask)
      0
  { cheap_moves_mask := cheap_move_set_mask
    sticker_flag := args.stickers
    pruning_table_depth := args.depth }

example : (mainInit ⟨2, true, false, ["x"], 3⟩).cheap_moves_mask = 2 := by decide


/-- An environment whose oracle always answers 10, used to exercise the
pruning branch on concrete inputs. -/
def bigEnv : CubeEnv Unit where
  apply_move := fun _ _ => ()
  lower_bound := fun _ => 10
  solved := ()

/-- C1: for every cube state `s`, move list `ms`, and budget `b` with
`ms.len() <= 1` or `b == 0`, `dfs s ms b` returns exactly one
partial-Solution of `max(ms.len() - 1, 0)` identity entries if the oracle
lower bound of the state obtained by applying all of `ms` to `s` is at
most 1, and the empty set otherwise. -/
theorem dfs_base_case {S : Type} (env : CubeEnv S) (s : S) (ms : List Move) (b : Nat)
    (h : ms.length ≤ 1 ∨ b = 0) :
    dfs env s ms b =
      if env.lower_bound (env.apply_moves s ms) ≤ 1 then
        [List.replicate (ms.length - 1) Reorient.None]
      else [] := by
  match ms with
  | [] => simp [dfs, dfsBase]
  | [m] => simp [dfs, dfsBase]
  | m :: m2 :: rest =>
    have hb : b = 0 := by
      rcases h with h | h
      · simp at h
      · exact h
    subst hb
    simp [dfs, dfsBase]

theorem dfs_base_case_witness :
    dfs trivEnv () [Move.R .Standard, Move.U .Standard] 0 =
      if trivEnv.lower_bound
          (trivEnv.apply_moves () [Move.R .Standard, Move.U .Standard]) ≤ 1 then
        [List.replicate ([Move.R .Standard, Move.U .Standard].length - 1) Reorient.None]
      else [] :=
  dfs_base_case trivEnv () [Move.R .Standard, Move.U .Standard] 0 (Or.inr rfl)

/-- C2: for every cube state `s`, move list `ms` with more than one move,
and positive budget `b`, if the oracle lower bound queried on `s` (before
applying any move) exceeds `ms.len() + 1`, then `dfs s ms b` returns the
empty set. -/
theorem dfs_prunes {S : Type} (env : CubeEnv S) (s : S) (ms : List Move) (b : Nat)
    (hms : 1 < ms.length) (hb : 0 < b)
    (h : env.lower_bound s > ms.length + 1) :
    dfs env s ms b = [] := by
  match ms with
  | [] => simp at hms
  | [m] => simp at hms
  | m :: m2 :: rest =>
    have hb' : ¬ b = 0 := by omega
    simp only [dfs, if_neg hb']
    rw [if_pos (by simpa using h)]

theorem dfs_prunes_witness :
    dfs bigEnv () [Move.R .Standard, Move.U .Standard] 1 = [] :=
  dfs_prunes bigEnv () [Move.R .Standard, Move.U .Standard] 1 (by decide) (by decide)
    (by decide)

/-- C7: the effective cost of a reorientation is 1 when its bit is set in
the cheap-move mask and it is not the identity, and its base cost
otherwise; the base costs are 0 for the identity, 1 for the 6 face-axis
quarter turns, 2 for the 3 face-axis half turns, 3 for the 6 edge-axis
half turns, and 2 for the 8 corner-axis turns; the identity's effective
cost is 0 for every mask. -/
theorem reorient_cost_spec (cheap : Nat) (r : Reorient) :
    Reorient.cost cheap r =
      (if (cheap >>> r.idx) &&& 1 ≠ 0 ∧ r ≠ Reorient.None then 1 else r.base_cost)
    ∧ Reorient.cost cheap Reorient.None = 0
    ∧ ((cheap >>> r.idx) &&& 1 ≠ 0 → r ≠ Reorient.None → Reorient.cost cheap r = 1)
    ∧ (∀ x ∈ [Reorient.R, .L, .U, .D, .F, .B], Reorient.base_cost x = 1)
    ∧ (∀ x ∈ [Reorient.R2, .U2, .F2], Reorient.base_cost x = 2)
    ∧ (∀ x ∈ [Reorient.UF, .UR, .FR, .DF, .UL, .BR], Reorient.base_cost x = 3)
    ∧ (∀ x ∈ [Reorient.UFR, .DBL, .UFL, .DBR, .DFR, .UBL, .UBR, .DFL],
        Reorient.base_cost x = 2) := by
  refine ⟨rfl, by simp [Reorient.cost, Reorient.base_cost], ?_,
    by decide, by decide, by decide, by decide⟩
  intro h1 h2
  simp only [Reorient.cost]
  rw [if_pos ⟨h1, h2⟩]

theorem reorient_cost_spec_witness :
    Reorient.cost 2 Reorient.R = 1 ∧ Reorient.cost 2 Reorient.None = 0 :=
  ⟨(reorient_cost_spec 2 Reorient.R).2.2.1 (by decide) (by decide),
   (reorient_cost_spec 2 Reorient.R).2.1⟩

/-- C10: the cheap-move mask computed at startup is identical for two runs
that differ only in the sticker-notation flag, because the mask is built
from each reorientation's display string before `args.stickers` is stored
into the global flag; user-supplied cheap-move names therefore match the
axis-rotation tokens (for example `"x"` matches the ` Ox ` rendering of
`Reorient::R`) and never the sticker-tracking tokens. -/
theorem cheap_mask_sticker_independent (depth : Nat) (s1 s2 all : Bool)
    (cheap_moves : List String) (max_depth : Nat) :
    (mainInit ⟨depth, s1, all, cheap_moves, max_depth⟩).cheap_moves_mask
      = (mainInit ⟨depth, s2, all, cheap_moves, max_depth⟩).cheap_moves_mask
    ∧ (mainInit ⟨2, true, false, ["x"], 3⟩).cheap_moves_mask = 2
    ∧ (mainInit ⟨2, true, false, ["23I:L"], 3⟩).cheap_moves_mask = 0
    ∧ Reorient.display false Reorient.R = " Ox "
    ∧ Reorient.display true Reorient.R = " 23I:L " :=
  ⟨rfl, by decide, by decide, rfl, rfl⟩

/-- C8: for an algorithm of length 0 or 1 and any `max_depth`, `iddfs`
returns `(0, [(0, d)])` where `d` is the display string of the single
move, or the empty string for an empty algorithm; in particular the
single-move algorithm `["R"]` yields `(0, [(0, "R")])`. -/
theorem iddfs_degenerate {S : Type} (env : CubeEnv S) (cheap : Nat) (sticker : Bool)
    (moves : List Move) (max_depth : Nat) (h : moves.length ≤ 1) :
    (moves = [] → iddfs env cheap sticker moves max_depth = some (0, [(0, "")]))
    ∧ (∀ m d, moves = [m] → display_move m = some d →
        iddfs env cheap sticker moves max_depth = some (0, [(0, d)]))
    ∧ iddfs env cheap sticker [Move.R .Standard] max_depth = some (0, [(0, "R")]) := by
  refine ⟨?_, ?_, ?_⟩
  · intro he; subst he; simp [iddfs]
  · intro m d he hd; subst he; simp [iddfs, hd]
  · simp [iddfs, display_move, display_move_variant]

theorem iddfs_degenerate_witness :
    iddfs trivEnv 0 false [Move.R .Standard] 3 = some (0, [(0, "R")]) :=
  (iddfs_degenerate trivEnv 0 false [Move.R .Standard] 3 (by decide)).2.1
    (Move.R .Standard) "R" rfl rfl

theorem dfsBase_mem {S : Type} {env : CubeEnv S} {s : S} {ms : List Move} {sol : Solution}
    (h : sol ∈ dfsBase env s ms) :
    sol = List.replicate (ms.length - 1) Reorient.None := by
  unfold dfsBase at h
  split at h
  · simpa using h
  · simp at h

theorem dfs_length_aux {S : Type} (env : CubeEnv S) :
    ∀ (ms : List Move) (s : S) (b : Nat), ∀ sol ∈ dfs env s ms b,
      sol.length = ms.length - 1 := by
  intro ms
  induction ms with
  | nil =>
    intro s b sol h
    rw [show dfs env s [] b = dfsBase env s [] by cases b <;> simp [dfs]] at h
    simp [dfsBase_mem h]
  | cons m tail ih =>
    intro s b sol h
    cases tail with
    | nil =>
      rw [show dfs env s [m] b = dfsBase env s [m] by cases b <;> simp [dfs]] at h
      simp [dfsBase_mem h]
    | cons m2 rest =>
      by_cases hb : b = 0
      · subst hb
        rw [show dfs env s (m :: m2 :: rest) 0 = dfsBase env s (m :: m2 :: rest) by
          simp [dfs]] at h
        simp [dfsBase_mem h]
      · simp only [dfs, if_neg hb] at h
        split at h
        · simp at h
        · rw [List.mem_flatMap] at h
          obtain ⟨r, _, hm⟩ := h
          rw [List.mem_map] at hm
          obtain ⟨sol', hs', rfl⟩ := hm
          have := ih _ _ sol' hs'
          simp only [List.length_append, List.length_cons, List.length_nil] at this ⊢
          omega

/-- C6: for every cube state `s`, move list `ms`, and budget `b`, every
partial-Solution returned by `dfs s ms b` has exactly `ms.len() - 1`
entries when `ms` is non-empty, and exactly 0 entries when `ms` is
empty. -/
theorem dfs_solution_length {S : Type} (env : CubeEnv S) (s : S) (ms : List Move) (b : Nat) :
    ∀ sol ∈ dfs env s ms b,
      (1 ≤ ms.length → sol.length = ms.length - 1) ∧ (ms = [] → sol.length = 0) := by
  intro sol h
  have hlen := dfs_length_aux env ms s b sol h
  exact ⟨fun _ => hlen, fun he => by subst he; simpa using hlen⟩

theorem dfs_solution_length_witness :
    (1 ≤ ([Move.R .Standard, Move.U .Standard] : List Move).length →
      ([Reorient.None] : Solution).length
        = ([Move.R .Standard, Move.U .Standard] : List Move).length - 1)
    ∧ (([Move.R .Standard, Move.U .Standard] : List Move) = [] →
      ([Reorient.None] : Solution).length = 0) :=
  dfs_solution_length trivEnv () [Move.R .Standard, Move.U .Standard] 0
    [Reorient.None] (by decide)

theorem countP_replicate_none (k : Nat) :
    (List.replicate k Reorient.None).countP (fun r => !r.is_none) = 0 := by
  induction k with
  | zero => rfl
  | succ n ih => simp [List.replicate_succ, List.countP_cons, ih, Reorient.is_none]

theorem dfs_count_aux {S : Type} (env : CubeEnv S) :
    ∀ (ms : List Move) (s : S) (b : Nat), ∀ sol ∈ dfs env s ms b,
      sol.countP (fun r => !r.is_none) ≤ b := by
  intro ms
  induction ms with
  | nil =>
    intro s b sol h
    rw [show dfs env s [] b = dfsBase env s [] by cases b <;> simp [dfs]] at h
    simp [dfsBase_mem h, countP_replicate_none]
  | cons m tail ih =>
    intro s b sol h
    cases tail with
    | nil =>
      rw [show dfs env s [m] b = dfsBase env s [m] by cases b <;> simp [dfs]] at h
      simp [dfsBase_mem h, countP_replicate_none]
    | cons m2 rest =>
      by_cases hb : b = 0
      · subst hb
        rw [show dfs env s (m :: m2 :: rest) 0 = dfsBase env s (m :: m2 :: rest) by
          simp [dfs]] at h
        simp [dfsBase_mem h, countP_replicate_none]
      · simp only [dfs, if_neg hb] at h
        split at h
        · simp at h
        · rw [List.mem_flatMap] at h
          obtain ⟨r, _, hm⟩ := h
          rw [List.mem_map] at hm
          obtain ⟨sol', hs', rfl⟩ := hm
          have hc := ih _ _ sol' hs'
          rw [List.countP_append]
          cases hrn : r.is_none
          · simp only [hrn, List.countP_cons, List.countP_nil, Bool.not_false] at hc ⊢
            simp at hc ⊢
            omega
          · simp only [hrn, List.countP_cons, List.countP_nil, Bool.not_true] at hc ⊢
            simp at hc ⊢
            omega

/-- C5: every partial-Solution returned by `dfs s ms b` contains at most
`b` non-identity reorientations, and in the recursive case the child
budget is `b - 1` for every non-identity choice and `b` unchanged for the
identity choice (`b - 1 + 1`). -/
theorem dfs_budget_invariant {S : Type} (env : CubeEnv S) (s : S) (ms : List Move) (b : Nat) :
    (∀ sol ∈ dfs env s ms b, sol.countP (fun r => !r.is_none) ≤ b)
    ∧ (∀ (m m2 : Move) (rest : List Move) (b' : Nat),
        ¬ env.lower_bound s > (m :: m2 :: rest).length + 1 →
        dfs env s (m :: m2 :: rest) (b' + 1)
          = Reorient.ALL.flatMap fun reorient =>
              (dfs env (env.apply_moves (env.apply_move s m) reorient.equivalent_rkt_moves)
                  (m2 :: rest) (b' + 1 - 1 + if reorient.is_none then 1 else 0)).map
                (fun solution => solution ++ [reorient])) := by
  refine ⟨dfs_count_aux env ms s b, ?_⟩
  intro m m2 rest b' hp
  simp only [dfs, if_neg (by omega : ¬ b' + 1 = 0), if_neg hp]

theorem dfs_budget_invariant_witness :
    ([Reorient.R] : Solution).countP (fun r => !r.is_none) ≤ 1 :=
  (dfs_budget_invariant trivEnv () [Move.R .Standard, Move.U .Standard] 1).1
    [Reorient.R] (by decide)

/-- The alternating tail of the spec's display string (§4.3, §8
round-trip): for successive pairs of a reorientation and the display of
the following move, emit the reorientation's token followed by that move
display, and nothing else; the full display string is the first move's
display prepended to this. -/
def interleaveRD (sticker : Bool) : List (Reorient × String) → String
  | [] => ""
  | (r, d) :: rest => Reorient.display sticker r ++ d ++ interleaveRD sticker rest

theorem buildString_interleave (sticker : Bool) :
    ∀ (rs : List Reorient) (ms : List Move) (ds : List String) (acc : String),
      List.Forall₂ (fun mv dv => display_move mv = some dv) ms ds →
      buildString sticker acc (rs.zip ms)
        = some (acc ++ interleaveRD sticker (rs.zip ds)) := by
  intro rs
  induction rs with
  | nil =>
    intro ms ds acc h
    simp [buildString, interleaveRD]
  | cons r rs' ih =>
    intro ms ds acc h
    cases h with
    | nil => simp [buildString, interleaveRD]
    | cons h1 h2 =>
      rename_i m d' ms' ds'
      have ihh := ih ms' ds' (acc ++ Reorient.display sticker r ++ d') h2
      simp [List.zip, String.append_assoc] at ihh
      simp [List.zip_cons_cons, buildString, h1, interleaveRD, String.append_assoc]
      exact ihh

/-- C9: for every move list `m1 :: rest` (with displays `d :: ds`) and
every raw solution (produced in reverse gap order), the display string
built by `iddfs` equals `d` followed by the alternation of reorientation
token and next-move display over the reversed solution zipped with
`rest`, with no other separators (so for moves `[m1, m2, m3]` and raw
solution `[r2, r1]` it is `d1 ++ str(r1) ++ d2 ++ str(r2) ++ d3`); a
reorientation's token is a single blank space for the identity and the
token with one surrounding space each side otherwise; and the reported
cost is the sum of the effective costs of all reorientations in the
solution. -/
theorem solution_display_roundtrip (cheap : Nat) (sticker : Bool) :
    (∀ (m : Move) (mrest : List Move) (d : String) (ds : List String) (sol : Solution),
        display_move m = some d →
        List.Forall₂ (fun mv dv => display_move mv = some dv) mrest ds →
        formatSolution cheap sticker (m :: mrest) sol
          = some ((sol.map (Reorient.cost cheap)).sum,
              d ++ interleaveRD sticker (sol.reverse.zip ds)))
    ∧ (∀ (m1 m2 m3 : Move) (r1 r2 : Reorient) (d1 d2 d3 : String),
        display_move m1 = some d1 → display_move m2 = some d2 →
        display_move m3 = some d3 →
        formatSolution cheap sticker [m1, m2, m3] [r2, r1]
          = some ((([r2, r1] : List Reorient).map (Reorient.cost cheap)).sum,
              d1 ++ Reorient.display sticker r1 ++ d2
                ++ Reorient.display sticker r2 ++ d3))
    ∧ Reorient.display sticker Reorient.None = " "
    ∧ (∀ r : Reorient, r ≠ Reorient.None →
        ∃ tok, Reorient.display sticker r = " " ++ tok ++ " ")
    ∧ (∀ (moves : List Move) (sol : Solution) (res : Nat × String),
        formatSolution cheap sticker moves sol = some res →
        res.1 = (sol.map (Reorient.cost cheap)).sum) := by
  refine ⟨?_, ?_, rfl, ?_, ?_⟩
  · intro m mrest d ds sol hd hds
    simp [formatSolution, hd, buildString_interleave sticker sol.reverse mrest ds d hds]
  · intro m1 m2 m3 r1 r2 d1 d2 d3 h1 h2 h3
    simp [formatSolution, buildString, h1, h2, h3]
  · intro r hr
    cases r
    · exact absurd rfl hr
    all_goals exact ⟨_, rfl⟩
  · intro moves sol res h
    cases hh : moves.head? with
    | none => simp [formatSolution, hh] at h
    | some m0 =>
      cases hd : display_move m0 with
      | none => simp [formatSolution, hh, hd] at h
      | some d0 =>
        cases hbs : buildString sticker d0 (sol.reverse.zip moves.tail) with
        | none => simp [formatSolution, hh, hd, hbs] at h
        | some str =>
          obtain ⟨rc, rs⟩ := res
          simp [formatSolution, hh, hd, hbs] at h
          exact h.1.symm

theorem solution_display_roundtrip_witness :
    formatSolution 0 false [Move.R .Standard, Move.U .Standard, Move.F .Standard]
        [Reorient.None, Reorient.R]
      = some ((([Reorient.None, Reorient.R] : List Reorient).map (Reorient.cost 0)).sum,
          "R" ++ interleaveRD false
            ((([Reorient.None, Reorient.R] : List Reorient).reverse).zip ["U", "F"])) :=
  (solution_display_roundtrip 0 false).1 (Move.R .Standard)
    [Move.U .Standard, Move.F .Standard] "R" ["U", "F"] [Reorient.None, Reorient.R]
    rfl (List.Forall₂.cons rfl (List.Forall₂.cons rfl List.Forall₂.nil))

theorem buildString_isSome (sticker : Bool) :
    ∀ (l : List (Reorient × Move)) (acc : String),
      (∀ p ∈ l, (display_move p.2).isSome) → (buildString sticker acc l).isSome := by
  intro l
  induction l with
  | nil =>
    intro acc _
    simp [buildString]
  | cons p rest ih =>
    intro acc h
    obtain ⟨r, mv⟩ := p
    have hm : (display_move mv).isSome := h (r, mv) (List.mem_cons_self _ _)
    obtain ⟨dm, hdm⟩ := Option.isSome_iff_exists.mp hm
    simp only [buildString, hdm, Option.some_bind]
    exact ih _ (fun q hq => h q (List.mem_cons_of_mem _ hq))

theorem formatSolution_isSome (cheap : Nat) (sticker : Bool) (moves : List Move)
    (hne : moves ≠ []) (hdisp : ∀ m ∈ moves, (display_move m).isSome) (sol : Solution) :
    (formatSolution cheap sticker moves sol).isSome := by
  match moves, hne with
  | m0 :: mrest, _ =>
    have h0 : (display_move m0).isSome := hdisp m0 (List.mem_cons_self _ _)
    obtain ⟨d0, hd0⟩ := Option.isSome_iff_exists.mp h0
    have hb : (buildString sticker d0 (sol.reverse.zip mrest)).isSome := by
      apply buildString_isSome
      intro p hp
      obtain ⟨pr, pm⟩ := p
      have hmem := (List.of_mem_zip hp).2
      exact hdisp pm (List.mem_cons_of_mem _ hmem)
    obtain ⟨str, hstr⟩ := Option.isSome_iff_exists.mp hb
    simp [formatSolution, hd0, hstr]

theorem formatSolutions_isSome (cheap : Nat) (sticker : Bool) (moves : List Move)
    (hne : moves ≠ []) (hdisp : ∀ m ∈ moves, (display_move m).isSome) :
    ∀ sols : List Solution, (formatSolutions cheap sticker moves sols).isSome := by
  intro sols
  induction sols with
  | nil => simp [formatSolutions]
  | cons sol rest ih =>
    obtain ⟨r, hr⟩ := Option.isSome_iff_exists.mp
      (formatSolution_isSome cheap sticker moves hne hdisp sol)
    obtain ⟨rs, hrs⟩ := Option.isSome_iff_exists.mp ih
    simp [formatSolutions, hr, hrs]

theorem iddfsLoop_isSome {S : Type} (env : CubeEnv S) (cheap : Nat) (sticker : Bool)
    (moves : List Move) (hne : moves ≠ [])
    (hdisp : ∀ m ∈ moves, (display_move m).isSome) :
    ∀ (n b0 : Nat), (iddfsLoop env cheap sticker moves b0 n).isSome := by
  intro n
  induction n with
  | zero => intro b0; simp [iddfsLoop]
  | succ k ih =>
    intro b0
    by_cases he : (dfs env env.solved moves b0).isEmpty
    · simp only [iddfsLoop, he, if_pos]
      exact ih (b0 + 1)
    · obtain ⟨sols, hs⟩ := Option.isSome_iff_exists.mp
        (formatSolutions_isSome cheap sticker moves hne hdisp
          (dfs env env.solved moves b0))
      simp [iddfsLoop, he, hs]

theorem iddfsLoop_all_empty {S : Type} (env : CubeEnv S) (cheap : Nat) (sticker : Bool)
    (moves : List Move) :
    ∀ (n b0 : Nat), (∀ i < n, dfs env env.solved moves (b0 + i) = []) →
      iddfsLoop env cheap sticker moves b0 n = some (0, []) := by
  intro n
  induction n with
  | zero => intro b0 _; rfl
  | succ k ih =>
    intro b0 h
    have h0 : dfs env env.solved moves b0 = [] := by simpa using h 0 (by omega)
    simp only [iddfsLoop, h0, List.isEmpty_nil, if_pos]
    apply ih
    intro i hi
    rw [show b0 + 1 + i = b0 + (i + 1) by omega]
    exact h (i + 1) (by omega)

theorem iddfsLoop_first {S : Type} (env : CubeEnv S) (cheap : Nat) (sticker : Bool)
    (moves : List Move) :
    ∀ (n j b0 : Nat), j < n → (∀ i < j, dfs env env.solved moves (b0 + i) = []) →
      dfs env env.solved moves (b0 + j) ≠ [] →
      iddfsLoop env cheap sticker moves b0 n
        = (formatSolutions cheap sticker moves (dfs env env.solved moves (b0 + j))).map
            (fun sols => (b0 + j, sols)) := by
  intro n
  induction n with
  | zero =>
    intro j b0 hj
    omega
  | succ k ih =>
    intro j b0 hj hprev hne
    cases j with
    | zero =>
      have he : (dfs env env.solved moves b0).isEmpty = false := by
        cases hd : dfs env env.solved moves b0 with
        | nil => exact absurd (by simpa using hd) hne
        | cons a l => rfl
      simp [iddfsLoop, he]
    | succ j' =>
      have h0 : dfs env env.solved moves b0 = [] := by simpa using hprev 0 (by omega)
      simp only [iddfsLoop, h0, List.isEmpty_nil, if_pos]
      have heq : b0 + 1 + j' = b0 + (j' + 1) := by omega
      have := ih j' (b0 + 1) (by omega)
        (fun i hi => by
          rw [show b0 + 1 + i = b0 + (i + 1) by omega]
          exact hprev (i + 1) (by omega))
        (by rw [heq]; exact hne)
      rw [this, heq]

/-- C4: for every algorithm of length at least 2 (with displayable moves)
and every `max_depth`, `iddfs` tries `dfs` from the solved state with
budgets `0` through `min(algorithm.len(), max_depth + 1) - 1` inclusive,
returns at the first budget whose result set is non-empty the pair of
that budget and the formatted solutions, returns `(0, [])` if every
budget up to the maximum yields the empty set, and never signals an
error (the result is always `some`). -/
theorem iddfs_spec {S : Type} (env : CubeEnv S) (cheap : Nat) (sticker : Bool)
    (moves : List Move) (max_depth : Nat)
    (hlen : 2 ≤ moves.length)
    (hdisp : ∀ m ∈ moves, (display_move m).isSome) :
    ∃ out, iddfs env cheap sticker moves max_depth = some out
      ∧ ((∀ b < min moves.length (max_depth + 1), dfs env env.solved moves b = []) →
          out = (0, []))
      ∧ (∀ b < min moves.length (max_depth + 1),
          dfs env env.solved moves b ≠ [] →
          (∀ b' < b, dfs env env.solved moves b' = []) →
          out.1 = b
            ∧ formatSolutions cheap sticker moves (dfs env env.solved moves b)
                = some out.2) := by
  have hne : moves ≠ [] := by
    intro h
    subst h
    simp at hlen
  have hiddfs : iddfs env cheap sticker moves max_depth
      = iddfsLoop env cheap sticker moves 0 (min moves.length (max_depth + 1)) := by
    unfold iddfs
    rw [if_neg (by omega)]
  obtain ⟨out, hout⟩ := Option.isSome_iff_exists.mp
    (iddfsLoop_isSome env cheap sticker moves hne hdisp
      (min moves.length (max_depth + 1)) 0)
  refine ⟨out, by rw [hiddfs, hout], ?_, ?_⟩
  · intro hall
    have hempty := iddfsLoop_all_empty env cheap sticker moves
      (min moves.length (max_depth + 1)) 0
      (fun i hi => by simpa using hall i (by omega))
    rw [hempty] at hout
    exact (Option.some.inj hout).symm
  · intro b hb hbne hprev
    have hfirst := iddfsLoop_first env cheap sticker moves
      (min moves.length (max_depth + 1)) b 0 (by omega)
      (fun i hi => by simpa using hprev i hi) (by simpa using hbne)
    rw [hout] at hfirst
    obtain ⟨sols, hsols⟩ := Option.isSome_iff_exists.mp
      (formatSolutions_isSome cheap sticker moves hne hdisp
        (dfs env env.solved moves b))
    rw [show (0 : Nat) + b = b by omega] at hfirst
    rw [hsols] at hfirst
    have hout2 : out = (b, sols) := Option.some.inj hfirst
    subst hout2
    exact ⟨rfl, hsols⟩

theorem iddfs_spec_witness :
    ∃ out, iddfs trivEnv 0 false [Move.R .Standard, Move.U .Standard] 3 = some out
      ∧ ((∀ b < min ([Move.R .Standard, Move.U .Standard] : List Move).length (3 + 1),
            dfs trivEnv trivEnv.solved [Move.R .Standard, Move.U .Standard] b = []) →
          out = (0, []))
      ∧ (∀ b < min ([Move.R .Standard, Move.U .Standard] : List Move).length (3 + 1),
          dfs trivEnv trivEnv.solved [Move.R .Standard, Move.U .Standard] b ≠ [] →
          (∀ b' < b, dfs trivEnv trivEnv.solved [Move.R .Standard, Move.U .Standard] b' = []) →
          out.1 = b
            ∧ formatSolutions 0 false [Move.R .Standard, Move.U .Standard]
                (dfs trivEnv trivEnv.solved [Move.R .Standard, Move.U .Standard] b)
                = some out.2) :=
  iddfs_spec trivEnv 0 false [Move.R .Standard, Move.U .Standard] 3
    (by decide) (by decide)

/-- An environment on which budget monotonicity fails: a state records the
moves applied so far, and the oracle answers 0 exactly on the start state
and on the end state of the three-move algorithm `U U U`, and 10
everywhere else. The oracle is a plain function of the state, as the
spec's external-collaborator interface allows, but it is not consistent
along moves (it can drop by more than 1 across a single move). -/
def cexEnv : CubeEnv (List Move) where
  apply_move := fun s m => s ++ [m]
  lower_bound := fun s =>
    if s = [] ∨ s = [Move.U .Standard, Move.U .Standard, Move.U .Standard] then 0 else 10
  solved := []

/-- C3 counterexample: with the oracle of `cexEnv`, the search from the
solved state on the algorithm `U U U` yields a non-empty result at budget
0 (the base case queries only the end state, which the oracle maps to 0)
but the empty result at budget 1 (the recursion queries intermediate
states, which the oracle maps to 10, so every branch is pruned or fails);
so a non-empty result at a smaller budget does not imply a non-empty
result at a larger one. -/
theorem dfs_not_monotonic :
    dfs cexEnv cexEnv.solved [Move.U .Standard, Move.U .Standard, Move.U .Standard] 0 ≠ []
    ∧ dfs cexEnv cexEnv.solved
        [Move.U .Standard, Move.U .Standard, Move.U .Standard] 1 = [] :=
  ⟨by decide, by decide⟩

theorem lower_bound_le_of_consistent {S : Type} (env : CubeEnv S)
    (hcons : ∀ (s : S) (m : Move),
      env.lower_bound s ≤ env.lower_bound (env.apply_move s m) + 1) :
    ∀ (ms : List Move) (s : S),
      env.lower_bound s ≤ env.lower_bound (env.apply_moves s ms) + ms.length := by
  intro ms
  induction ms with
  | nil =>
    intro s
    simp [CubeEnv.apply_moves]
  | cons m tl ih =>
    intro s
    have h1 := hcons s m
    have h2 := ih (env.apply_move s m)
    have h3 : env.apply_moves s (m :: tl) = env.apply_moves (env.apply_move s m) tl := rfl
    rw [h3]
    simp only [List.length_cons]
    omega

theorem identity_path_mem {S : Type} (env : CubeEnv S)
    (hcons : ∀ (s : S) (m : Move),
      env.lower_bound s ≤ env.lower_bound (env.apply_move s m) + 1) :
    ∀ (ms : List Move) (s : S) (b : Nat),
      env.lower_bound (env.apply_moves s ms) ≤ 1 →
      List.replicate (ms.length - 1) Reorient.None ∈ dfs env s ms b := by
  intro ms
  induction ms with
  | nil =>
    intro s b h
    rw [show dfs env s [] b = dfsBase env s [] by cases b <;> simp [dfs]]
    simp [dfsBase, h]
  | cons m tl ih =>
    intro s b h
    cases tl with
    | nil =>
      rw [show dfs env s [m] b = dfsBase env s [m] by cases b <;> simp [dfs]]
      simp [dfsBase, h]
    | cons m2 rest =>
      by_cases hb : b = 0
      · subst hb
        rw [show dfs env s (m :: m2 :: rest) 0 = dfsBase env s (m :: m2 :: rest) by
          simp [dfs]]
        simp [dfsBase, h]
      · have hlb := lower_bound_le_of_consistent env hcons (m :: m2 :: rest) s
        have hprune : ¬ env.lower_bound s > (m :: m2 :: rest).length + 1 := by
          simp only [List.length_cons] at hlb ⊢
          omega
        simp only [dfs, if_neg hb, if_neg hprune]
        rw [List.mem_flatMap]
        refine ⟨Reorient.None, by decide, ?_⟩
        rw [List.mem_map]
        refine ⟨List.replicate ((m2 :: rest).length - 1) Reorient.None, ?_, ?_⟩
        · exact ih (env.apply_move s m)
            (b - 1 + if Reorient.None.is_none then 1 else 0) h
        · rw [← List.replicate_succ']
          congr 1

theorem dfs_succ_nonempty {S : Type} (env : CubeEnv S)
    (hcons : ∀ (s : S) (m : Move),
      env.lower_bound s ≤ env.lower_bound (env.apply_move s m) + 1) :
    ∀ (ms : List Move) (s : S) (b : Nat),
      dfs env s ms b ≠ [] → dfs env s ms (b + 1) ≠ [] := by
  intro ms
  induction ms with
  | nil =>
    intro s b h
    rw [show dfs env s [] b = dfsBase env s [] by cases b <;> simp [dfs]] at h
    rw [show dfs env s [] (b + 1) = dfsBase env s [] by simp [dfs]]
    exact h
  | cons m tl ih =>
    intro s b h
    cases tl with
    | nil =>
      rw [show dfs env s [m] b = dfsBase env s [m] by cases b <;> simp [dfs]] at h
      rw [show dfs env s [m] (b + 1) = dfsBase env s [m] by simp [dfs]]
      exact h
    | cons m2 rest =>
      by_cases hb : b = 0
      · subst hb
        have hend : env.lower_bound (env.apply_moves s (m :: m2 :: rest)) ≤ 1 := by
          by_contra hc
          apply h
          rw [show dfs env s (m :: m2 :: rest) 0 = dfsBase env s (m :: m2 :: rest) by
            simp [dfs]]
          simp [dfsBase, hc]
        intro hc
        have hmem := identity_path_mem env hcons (m :: m2 :: rest) s 1 hend
        rw [hc] at hmem
        exact absurd hmem (List.not_mem_nil _)
      · have hb1 : ¬ (b + 1 = 0) := by omega
        simp only [dfs, if_neg hb] at h
        simp only [dfs, if_neg hb1]
        by_cases hp : env.lower_bound s > (m :: m2 :: rest).length + 1
        · rw [if_pos hp] at h
          exact absurd rfl h
        · rw [if_neg hp] at h
          rw [if_neg hp]
          intro hnil
          apply h
          rw [List.flatMap_eq_nil_iff] at hnil ⊢
          intro r hr
          have hnr := hnil r hr
          rw [List.map_eq_nil_iff] at hnr ⊢
          have hbud : b + 1 - 1 + (if r.is_none then 1 else 0)
              = (b - 1 + (if r.is_none then 1 else 0)) + 1 := by omega
          rw [hbud] at hnr
          by_contra hne
          exact (ih _ _ hne) hnr

/-- C3 (amended): for every algorithm, budgets `k1 < k2`, and an oracle
that is consistent along moves (`lower_bound(s) ≤
lower_bound(apply_move(s, m)) + 1`, as holds for a breadth-first pruning
table), a non-empty result of the search from the solved state at budget
`k1` implies a non-empty result at budget `k2`. For an arbitrary oracle
the claim fails (see the counterexample): the budget-0 base case queries
the oracle only on the end state, while every positive budget also
queries intermediate states and can be pruned there. -/
theorem dfs_monotonic_of_consistent {S : Type} (env : CubeEnv S)
    (hcons : ∀ (s : S) (m : Move),
      env.lower_bound s ≤ env.lower_bound (env.apply_move s m) + 1)
    (ms : List Move) (k1 k2 : Nat) (hk : k1 < k2)
    (h : dfs env env.solved ms k1 ≠ []) :
    dfs env env.solved ms k2 ≠ [] := by
  have hstep : ∀ j, dfs env env.solved ms (k1 + j) ≠ [] := by
    intro j
    induction j with
    | zero => simpa using h
    | succ i ihj =>
      have hs := dfs_succ_nonempty env hcons ms env.solved (k1 + i) ihj
      rwa [show k1 + i + 1 = k1 + (i + 1) by omega] at hs
  have hfin := hstep (k2 - k1)
  rwa [show k1 + (k2 - k1) = k2 by omega] at hfin

theorem dfs_monotonic_of_consistent_witness :
    dfs trivEnv trivEnv.solved [Move.R .Standard, Move.U .Standard] 1 ≠ [] :=
  dfs_monotonic_of_consistent trivEnv
    (fun s m => by simp [trivEnv]) [Move.R .Standard, Move.U .Standard] 0 1
    (by omega) (by decide)
